import Mathlib

/-!
Verification development for the biotech 13F analysis repository.

The definitions below are a shallow embedding of the Python source:

* `pyFloatL`, `parseValueStr`, `parseSharesStr`, `getText`, `getValue`,
  `getShares`, `parseRow`, `parseRows` embed the per-row loader of
  `csv_analyzer.py` (`CSV13FAnalyzer.parse_csv_file`, lines 83-139).
  Numeric cells are rationals; a Python exception during per-row field
  extraction is modelled by `Option` (`none` = the row's iteration hits the
  `except: continue` branch).  `pyFloatL` models Python `float()` on plain
  numeric literals (optional sign, decimal digits, optional fraction and
  exponent); it does not model underscores, `inf` or `nan` literals, which
  never occur in this repository's data path.
* `dictInsert`, `buildPositions`, `newBuys`, `positionExits`,
  `positionIncreases`, `positionDecreases` embed the snapshot index and the
  change classification of `analyze_buys_sells_increases.py` (lines 19-90)
  and `create_final_enhanced_master.py` (lines 144-205).  Python dicts are
  association lists whose insertion keeps the first occurrence's slot
  (Python dict assignment semantics).  The source fixes the materiality
  threshold to the literal `0.5`; the classifier here takes the threshold
  `t` as a parameter so that statements can quantify over it, and every
  concrete instance uses `1/2`.  Emissions keep the dict key next to the
  emitted record so that per-key properties can be stated; the record
  component is exactly what the source appends.
* `counterList`, `mostCommon`, `createDetailedAnalysis` embed
  `Counter`/`most_common` and `create_detailed_analysis` of
  `analyze_buys_sells_increases.py` (lines 97-170); `groupByCompany`,
  `mkEnhancedDetail`, `createEnhancedSummary` embed
  `create_enhanced_summary` of `create_final_enhanced_master.py`
  (lines 207-256).  Python's stable sorts (`sorted(..., reverse=True)`,
  `list.sort(key=..., reverse=True)`, `Counter.most_common`) are embedded
  by the stable insertion sort `sortStableBy`.
* `pairKey` embeds `create_position_key` (the `fund_name + "||" + company`
  comparison key).
-/

namespace B13F

section

attribute [local semireducible] Rat.add Rat.mul Rat.sub Rat.inv Rat.ofScientific

/-! ## Python `float()` on plain numeric literals -/

def isWs (c : Char) : Bool :=
  c == ' ' || c == '\t' || c == '\n' || c == '\r'

def trimWs (l : List Char) : List Char :=
  ((l.dropWhile isWs).reverse.dropWhile isWs).reverse

def digitsToNat (l : List Char) : Nat :=
  l.foldl (fun a c => 10 * a + (c.toNat - 48)) 0

def parseUnsignedDigits (l : List Char) : Option Nat :=
  if l.isEmpty then none
  else if l.all Char.isDigit then some (digitsToNat l) else none

def parseMantissa (l : List Char) : Option ℚ :=
  let ip := l.takeWhile Char.isDigit
  let rest := l.drop ip.length
  match rest with
  | [] => if ip.isEmpty then none else some ((digitsToNat ip : ℚ))
  | '.' :: frac =>
    if frac.all Char.isDigit && !(ip.isEmpty && frac.isEmpty) then
      some ((digitsToNat ip : ℚ) + (digitsToNat frac : ℚ) / (10 : ℚ) ^ frac.length)
    else none
  | _ => none

def parseExpPart (l : List Char) : Option ℤ :=
  match l with
  | '+' :: r => (parseUnsignedDigits r).map (fun n => (n : ℤ))
  | '-' :: r => (parseUnsignedDigits r).map (fun n => -(n : ℤ))
  | r => (parseUnsignedDigits r).map (fun n => (n : ℤ))

def splitOnExp (l : List Char) : List Char × Option (List Char) :=
  let m := l.takeWhile (fun c => !(c == 'e' || c == 'E'))
  match l.drop m.length with
  | [] => (m, none)
  | _ :: t => (m, some t)

def pyFloatCore (l : List Char) : Option ℚ :=
  match splitOnExp l with
  | (m, none) => parseMantissa m
  | (m, some ex) =>
    match parseMantissa m, parseExpPart ex with
    | some q, some e => some (q * (10 : ℚ) ^ e)
    | _, _ => none

/-- Model of Python `float(s)` on ordinary numeric literals. -/
def pyFloatL (l : List Char) : Option ℚ :=
  match trimWs l with
  | '+' :: r => pyFloatCore r
  | '-' :: r => (pyFloatCore r).map Neg.neg
  | r => pyFloatCore r

/-! ## Value / shares cleaning (csv_analyzer.py lines 89-122) -/

/-- `value_raw.replace('$','').replace(',','').replace('(','').replace(')','')`. -/
def stripMoneyChars (l : List Char) : List Char :=
  l.filter (fun c => !(c == '$' || c == ',' || c == '(' || c == ')'))

/-- ASCII model of Python `str.upper` on one character. -/
def upperChar (c : Char) : Char :=
  if c.isLower then Char.ofNat (c.toNat - 32) else c

/-- The characters a plain (unsuffixed) money string may contain: digits,
dollar sign, thousands separator, decimal point. -/
def goodMoneyChars : List Char :=
  ['0', '1', '2', '3', '4', '5', '6', '7', '8', '9', '$', ',', '.']

/--
The string branch of the market-value parse (csv_analyzer.py lines 92-109):
strip `$ , ( )`, detect a `K`/`M`/`B` anywhere in the uppercased remainder,
remove that letter from the uppercased string, multiply by the matching
power of ten; a failing `float()` yields `0` (the inner `except`).
-/
def parseValueStr (s : String) : ℚ :=
  let cleaned := stripMoneyChars s.data
  let up := cleaned.map upperChar
  if up.contains 'K' then
    1000 * ((pyFloatL (up.filter (fun c => !(c == 'K')))).getD 0)
  else if up.contains 'M' then
    1000000 * ((pyFloatL (up.filter (fun c => !(c == 'M')))).getD 0)
  else if up.contains 'B' then
    1000000000 * ((pyFloatL (up.filter (fun c => !(c == 'B')))).getD 0)
  else
    (pyFloatL cleaned).getD 0

/-- The string branch of the shares parse (lines 115-120): strip commas,
`float()`, failure yields `0`. -/
def parseSharesStr (s : String) : ℚ :=
  (pyFloatL (s.data.filter (fun c => !(c == ',')))).getD 0

/-! ## Loader row model (csv_analyzer.py lines 83-139) -/

/-- One raw cell as handed over by `row.get(column, default)`:
a string cell, a numeric cell, pandas `NaN`, or an absent column
(in which case `row.get` returns the call's default). -/
inductive Cell where
  | s (v : String)
  | n (v : ℚ)
  | nan
  | missing
deriving DecidableEq

structure RawRow where
  company : Cell
  ticker : Cell
  shares : Cell
  value : Cell
deriving DecidableEq

/-- Python `str.strip()`: drop whitespace from both ends. -/
def pyStrip (s : String) : String :=
  String.mk (trimWs s.data)

/-- `row.get(col, '').strip()`: a missing column gives the default `''`;
a numeric or `NaN` cell has no `.strip` and raises (`none`). -/
def getText : Cell → Option String
  | .s v => some (pyStrip v)
  | .missing => some ""
  | .n _ => none
  | .nan => none

/-- Market-value extraction (lines 90-111): strings are cleaned and parsed,
numbers pass through, `NaN` and a missing column give `0`.  Never raises. -/
def getValue : Cell → ℚ
  | .s v => parseValueStr v
  | .n q => q
  | .nan => 0
  | .missing => 0

/-- Shares extraction (lines 114-122). Never raises. -/
def getShares : Cell → ℚ
  | .s v => parseSharesStr v
  | .n q => q
  | .nan => 0
  | .missing => 0

/-- One accepted holding record (the dict appended to `holdings_data`). -/
structure Holding where
  fund_name : String
  company : String
  ticker : String
  shares : ℚ
  value : ℚ
deriving DecidableEq

/--
One iteration of the per-row loop (lines 84-136): extract `company` and
`ticker` (either may raise, which the `except` turns into a skipped row),
coerce `value` and `shares`, then accept the row exactly when
`company and (value > 0 or shares > 0)`.
-/
def parseRow (fundName : String) (r : RawRow) : Option Holding :=
  match getText r.company, getText r.ticker with
  | some company, some ticker =>
    let value := getValue r.value
    let shares := getShares r.shares
    if company ≠ "" ∧ (0 < value ∨ 0 < shares) then
      some { fund_name := fundName, company := company, ticker := ticker,
             shares := shares, value := value }
    else none
  | _, _ => none

/-- The whole row loop: the accepted holdings in order together with
`holdings_count`, the number of successfully parsed rows, which is what
`parse_csv_file` returns to its caller (line 139). -/
def parseRows (fundName : String) : List RawRow → List Holding × Nat
  | [] => ([], 0)
  | r :: rs =>
    match parseRow fundName r with
    | some h =>
      let rest := parseRows fundName rs
      (h :: rest.1, rest.2 + 1)
    | none => parseRows fundName rs

/-! ## Position dictionaries (analyze_buys_sells_increases.py lines 19-47) -/

/-- The per-position dict stored in `q1_positions` / `q4_positions`;
the four optional fields are the keys added by `increase_data` /
`decrease_data` (lines 76-89). -/
structure PosData where
  value : ℚ
  shares : ℚ
  company : String
  ticker : String
  fund_name : String
  industry : String
  q4_value : Option ℚ := none
  q1_value : Option ℚ := none
  pct_change : Option ℚ := none
  dollar_change : Option ℚ := none
deriving DecidableEq

/-- One CSV row of the interchange files consumed by the analysis scripts. -/
structure CsvRow where
  fund_name : String
  company : String
  ticker : String
  value : ℚ
  shares : ℚ
  industry : String
deriving DecidableEq

/-- `create_position_key`: `f"{fund_name}||{company}"`. -/
def pairKey (fund company : String) : String :=
  fund ++ "||" ++ company

def createPositionKey (r : CsvRow) : String :=
  pairKey r.fund_name r.company

def toPosition (r : CsvRow) : PosData :=
  { value := r.value, shares := r.shares, company := r.company,
    ticker := r.ticker, fund_name := r.fund_name, industry := r.industry }

/-- A Python dict keyed by position-key strings, in insertion order. -/
abbrev PosDict := List (String × PosData)

/-- First-match lookup, `d[k]` / `k in d`. -/
def lookupD (k : String) : PosDict → Option PosData
  | [] => none
  | (k', v) :: t => if k' = k then some v else lookupD k t

/-- Python dict assignment `d[k] = v`: an existing key keeps its slot and
gets the new value, a new key is appended at the end. -/
def dictInsert (k : String) (v : PosData) : PosDict → PosDict
  | [] => [(k, v)]
  | (k', v') :: t => if k' = k then (k', v) :: t else (k', v') :: dictInsert k v t

/-- The index-building loop (lines 27-47): one dict assignment per row. -/
def buildPositions (rows : List CsvRow) : PosDict :=
  rows.foldl (fun d r => dictInsert (createPositionKey r) (toPosition r) d) []

def keysOf (d : PosDict) : List String :=
  d.map (fun kv => kv.1)

def NodupKeys (d : PosDict) : Prop :=
  (keysOf d).Nodup

/-! ## Change classification (analyze_buys_sells_increases.py lines 49-90) -/

/-- `for key in q1_positions: if key not in q4_positions: new_buys.append(...)`. -/
def newBuys (cur prior : PosDict) : PosDict :=
  cur.filter (fun kv => (lookupD kv.1 prior).isNone)

/-- `for key in q4_positions: if key not in q1_positions: position_exits.append(...)`. -/
def positionExits (cur prior : PosDict) : PosDict :=
  prior.filter (fun kv => (lookupD kv.1 cur).isNone)

/-- `increase_data` (lines 76-80): copy of the current position plus the
four change fields. -/
def incPayload (p1 p0 : PosData) : PosData :=
  { p1 with q4_value := some p0.value, q1_value := some p1.value,
            pct_change := some ((p1.value - p0.value) / p0.value),
            dollar_change := some (p1.value - p0.value) }

/-- `decrease_data` (lines 85-89): copy of the prior position plus the
four change fields. -/
def decPayload (p1 p0 : PosData) : PosData :=
  { p0 with q4_value := some p0.value, q1_value := some p1.value,
            pct_change := some ((p1.value - p0.value) / p0.value),
            dollar_change := some (p1.value - p0.value) }

/-- The `pct_change > t` arm of the shared-key loop (lines 66-81).
The source writes the literal `0.5` for `t`. -/
def positionIncreases (t : ℚ) (cur prior : PosDict) : PosDict :=
  cur.filterMap (fun kv =>
    match lookupD kv.1 prior with
    | none => none
    | some p0 =>
      if 0 < p0.value then
        let pct := (kv.2.value - p0.value) / p0.value
        if t < pct then some (kv.1, incPayload kv.2 p0) else none
      else none)

/-- The `elif pct_change < -t` arm of the shared-key loop (lines 83-90):
only reached when the increase test failed. -/
def positionDecreases (t : ℚ) (cur prior : PosDict) : PosDict :=
  cur.filterMap (fun kv =>
    match lookupD kv.1 prior with
    | none => none
    | some p0 =>
      if 0 < p0.value then
        let pct := (kv.2.value - p0.value) / p0.value
        if t < pct then none
        else if pct < -t then some (kv.1, decPayload kv.2 p0) else none
      else none)

/-! ## Counters and stable sorting (Python `Counter` / `sorted`) -/

/-- One `counter[company] += 1` step: a known company's slot is bumped in
place, a new company is appended (dict insertion order). -/
def bump : List (String × Nat) → String → List (String × Nat)
  | [], c => [(c, 1)]
  | (c', n) :: t, c => if c' = c then (c', n + 1) :: t else (c', n) :: bump t c

/-- `Counter(pos['company'] for pos in positions)`: counts in order of first
appearance. -/
def counterList (positions : List PosData) : List (String × Nat) :=
  positions.foldl (fun acc p => bump acc p.company) []

/-- Stable insertion step: `x` passes over every earlier element that the
`before` test keeps ahead of it and lands in front of the rest, so equal
elements keep their original relative order (Python's sorts are stable). -/
def insertStableBy (before : α → α → Bool) (x : α) : List α → List α
  | [] => [x]
  | y :: t => if before y x then y :: insertStableBy before x t else x :: y :: t

/-- Stable sort placing `y` ahead of `x` exactly when `before y x`. -/
def sortStableBy (before : α → α → Bool) (l : List α) : List α :=
  l.foldr (insertStableBy before) []

/-- `Counter.most_common(n)`: stable descending sort by count, first `n`. -/
def mostCommon (n : Nat) (counter : List (String × Nat)) : List (String × Nat) :=
  (sortStableBy (fun y x => x.2 < y.2) counter).take n

/-! ## Detailed per-company analysis (analyze_buys_sells_increases.py 131-164) -/

/-- One row of `create_detailed_analysis`; the last two fields are the
`increases`-only metrics. -/
structure Detail where
  company : String
  ticker : String
  funds_count : Nat
  total_value : ℚ
  avg_position_size : ℚ
  industry : String
  avg_pct_increase : Option ℚ := none
  total_dollar_increase : Option ℚ := none
deriving DecidableEq

def sumValues (ps : List PosData) : ℚ :=
  ps.foldl (fun a p => a + p.value) 0

/-- `create_detailed_analysis(positions, company_counter, category_name)`. -/
def createDetailedAnalysis (positions : List PosData)
    (counter : List (String × Nat)) (categoryName : String) : List Detail :=
  (mostCommon 30 counter).map (fun cc =>
    let company := cc.1
    let count := cc.2
    let cps := positions.filter (fun p => p.company == company)
    let total := sumValues cps
    let avg := if cps.isEmpty then 0 else total / (cps.length : ℚ)
    let sample := cps.head?
    let base : Detail :=
      { company := company,
        ticker := (sample.map (fun p => p.ticker)).getD "",
        funds_count := count,
        total_value := total,
        avg_position_size := avg,
        industry := (sample.map (fun p => p.industry)).getD "" }
    if categoryName == "increases" &&
        (match sample with | some p => p.pct_change.isSome | none => false) then
      { base with
        avg_pct_increase :=
          some ((cps.foldl (fun a p => a + p.pct_change.getD 0) 0) / (cps.length : ℚ)),
        total_dollar_increase :=
          some (cps.foldl (fun a p => a + p.dollar_change.getD 0) 0) }
    else base)

/-! ## Enhanced summary (create_final_enhanced_master.py 207-256) -/

/-- One `company_to_funds[company]` update of the grouping loop: the
position is appended to its company's bucket, new companies are appended
at the end (defaultdict insertion order). -/
def addToGroup : List (String × List PosData) → PosData → List (String × List PosData)
  | [], p => [(p.company, [p])]
  | (c, ps) :: t, p =>
    if c = p.company then (c, ps ++ [p]) :: t else (c, ps) :: addToGroup t p

def groupByCompany (positions : List PosData) : List (String × List PosData) :=
  positions.foldl addToGroup []

structure EDetail where
  company : String
  ticker : String
  funds_count : Nat
  fund_names : String
  total_value : ℚ
  avg_position_size : ℚ
  industry : String
  avg_pct_increase : Option ℚ := none
  total_dollar_increase : Option ℚ := none
deriving DecidableEq

/-- `', '.join(sorted(funds))`. -/
def joinSortedFunds (funds : List String) : String :=
  String.intercalate ", " (sortStableBy (fun y x => decide (y < x)) funds)

/-- One `detail` dict of `create_enhanced_summary` (lines 220-246). -/
def mkEnhancedDetail (categoryName : String) (company : String)
    (ps : List PosData) : EDetail :=
  let fundCount := ps.length
  let total := sumValues ps
  let sample := ps.head?
  let base : EDetail :=
    { company := company,
      ticker := (sample.map (fun p => p.ticker)).getD "",
      funds_count := fundCount,
      fund_names := joinSortedFunds (ps.map (fun p => p.fund_name)),
      total_value := total,
      avg_position_size := if 0 < fundCount then total / (fundCount : ℚ) else 0,
      industry := (sample.map (fun p => p.industry)).getD "" }
  if categoryName == "increases" && ps.any (fun p => p.pct_change.isSome) then
    { base with
      avg_pct_increase :=
        some ((ps.foldl (fun a p => a + p.pct_change.getD 0) 0) / (ps.length : ℚ)),
      total_dollar_increase :=
        some (ps.foldl (fun a p => a + p.dollar_change.getD 0) 0) }
  else base

/-- `detailed.sort(key=lambda x: (x['funds_count'], x['total_value']),
reverse=True)`: keep `y` ahead of `x` exactly when `y`'s key pair is
strictly lexicographically greater. -/
def eBefore (y x : EDetail) : Bool :=
  x.funds_count < y.funds_count ||
    (y.funds_count == x.funds_count && x.total_value < y.total_value)

/-- `create_enhanced_summary(positions, category_name)`. -/
def createEnhancedSummary (positions : List PosData) (categoryName : String) :
    List EDetail :=
  (sortStableBy eBefore
    ((groupByCompany positions).map (fun g => mkEnhancedDetail categoryName g.1 g.2))).take 25

/-- The ordering the spec asserts for aggregate lists: adjacent-free,
pairwise `(funds_count, total_value)` lexicographic descending. -/
def SortedByCountValueDesc (l : List Detail) : Prop :=
  l.Pairwise (fun a b =>
    b.funds_count < a.funds_count ∨
      (a.funds_count = b.funds_count ∧ b.total_value ≤ a.total_value))

def ESortedByCountValueDesc (l : List EDetail) : Prop :=
  l.Pairwise (fun a b =>
    b.funds_count < a.funds_count ∨
      (a.funds_count = b.funds_count ∧ b.total_value ≤ a.total_value))

/-! ## Position-key encoding (create_position_key) -/

/-- Whether a character list contains two adjacent pipes. -/
def hasDoublePipe : List Char → Bool
  | [] => false
  | [_] => false
  | a :: b :: t => (a == '|' && b == '|') || hasDoublePipe (b :: t)

def hasDoublePipeS (s : String) : Bool :=
  hasDoublePipe s.data

/-! ## Concrete inputs used by witnesses and counterexamples -/

def mkPos (f c : String) (v : ℚ) : PosData :=
  { value := v, shares := 0, company := c, ticker := "", fund_name := f,
    industry := "" }

def mkCsv (f c : String) (v : ℚ) : CsvRow :=
  { fund_name := f, company := c, ticker := "", value := v, shares := 0,
    industry := "" }

/-- Current snapshot of the spec's concrete scenario: (FundA, AAPL) at 160. -/
def q1Aapl : PosDict := [("FundA||AAPL", mkPos "FundA" "AAPL" 160)]

/-- Prior snapshot of the spec's concrete scenario: (FundA, AAPL) at 100. -/
def q4Aapl : PosDict := [("FundA||AAPL", mkPos "FundA" "AAPL" 100)]

/-- Disjoint-snapshot scenario: current holds only (FundB, NEW). -/
def curNew : PosDict := [("FundB||NEW", mkPos "FundB" "NEW" 50)]

/-- Disjoint-snapshot scenario: prior holds only (FundA, XYZ). -/
def priorXyz : PosDict := [("FundA||XYZ", mkPos "FundA" "XYZ" 100)]

/-- Zero-prior scenario, current side. -/
def q1Zero : PosDict := [("FundA||ZRO", mkPos "FundA" "ZRO" 50)]

/-- Zero-prior scenario, prior side: prior market value 0. -/
def q4Zero : PosDict := [("FundA||ZRO", mkPos "FundA" "ZRO" 0)]

/-- Duplicate-key scenario: same (fund, company), two different values. -/
def dupRow1 : CsvRow := mkCsv "FundA" "AAPL" 100

def dupRow2 : CsvRow := mkCsv "FundA" "AAPL" 200

/-- A row whose company cell parses but whose ticker cell is pandas `NaN`:
field extraction raises and the row is skipped. -/
def badTickerRow : RawRow :=
  { company := .s "Apple", ticker := .nan, shares := .n 0, value := .n 100 }

/-- A row whose market-value string is numeric garbage: the inner `except`
coerces the value to 0 and the row is still accepted via its shares. -/
def numBadRow : RawRow :=
  { company := .s "Acme", ticker := .s "ACM", shares := .n 5, value := .s "xyz" }

/-- A row whose company cell is `NaN`: extraction raises, row dropped. -/
def nanCompanyRow : RawRow :=
  { company := .nan, ticker := .s "T", shares := .n 1, value := .n 10 }

/-- A perfectly ordinary accepted row. -/
def goodRow : RawRow :=
  { company := .s "Good Co", ticker := .s "GD", shares := .n 2, value := .n 30 }

/-- Aggregation-order scenario: companies A and B are each held by two
funds, but A (first seen, smaller total) precedes B (larger total). -/
def tiePositions : List PosData :=
  [mkPos "F1" "A" 10, mkPos "F2" "A" 5, mkPos "F3" "B" 40, mkPos "F4" "B" 60]

/-- Current-quarter rows for the partition witness. -/
def rowsCurW : List CsvRow := [mkCsv "FundA" "AAPL" 160]

/-- Prior-quarter rows for the partition witness. -/
def rowsPriorW : List CsvRow := [mkCsv "FundA" "AAPL" 100]

/-! ## Dictionary lemmas -/

theorem keysOf_cons (kv : String × PosData) (d : PosDict) :
    keysOf (kv :: d) = kv.1 :: keysOf d := rfl

theorem lookupD_isSome_iff (k : String) (d : PosDict) :
    (lookupD k d).isSome ↔ k ∈ keysOf d := by
  induction d with
  | nil => simp [lookupD, keysOf]
  | cons kv t ih =>
    rcases kv with ⟨k', v⟩
    by_cases h : k' = k
    · subst h
      simp [lookupD, keysOf]
    · simp [lookupD, h, keysOf_cons, ih, keysOf]
      intro hk
      exact absurd hk.symm h

theorem lookupD_eq_none_iff (k : String) (d : PosDict) :
    lookupD k d = none ↔ k ∉ keysOf d := by
  rw [← lookupD_isSome_iff, Option.not_isSome_iff_eq_none]

theorem lookupD_mem (k : String) (v : PosData) (d : PosDict)
    (h : lookupD k d = some v) : (k, v) ∈ d := by
  induction d with
  | nil => simp [lookupD] at h
  | cons kv t ih =>
    rcases kv with ⟨k', v'⟩
    by_cases hk : k' = k
    · subst hk
      simp [lookupD] at h
      simp [h]
    · simp [lookupD, hk] at h
      simp [ih h]

theorem lookupD_of_mem_nodup (k : String) (v : PosData) (d : PosDict)
    (hn : NodupKeys d) (h : (k, v) ∈ d) : lookupD k d = some v := by
  induction d with
  | nil => simp at h
  | cons kv t ih =>
    rcases kv with ⟨k', v'⟩
    rcases List.mem_cons.mp h with heq | ht
    · injection heq with h1 h2
      subst h1
      subst h2
      simp [lookupD]
    · have hk : k' ≠ k := by
        intro hkk
        subst hkk
        have : k' ∈ keysOf t := List.mem_map_of_mem (fun kv => kv.1) ht
        exact (List.nodup_cons.mp hn).1 this
      have hnt : NodupKeys t := (List.nodup_cons.mp hn).2
      simp [lookupD, hk, ih hnt ht]

theorem mem_keysOf_dictInsert (a k : String) (v : PosData) (d : PosDict)
    (h : a ∈ keysOf (dictInsert k v d)) : a = k ∨ a ∈ keysOf d := by
  induction d with
  | nil => simpa [dictInsert, keysOf] using h
  | cons kv t ih =>
    rcases kv with ⟨k', v'⟩
    by_cases hk : k' = k
    · simp [dictInsert, hk, keysOf_cons] at h ⊢
      tauto
    · simp [dictInsert, hk, keysOf_cons] at h ⊢
      rcases h with h | h
      · tauto
      · rcases ih h with h' | h' <;> tauto

theorem nodupKeys_dictInsert (k : String) (v : PosData) (d : PosDict)
    (hn : NodupKeys d) : NodupKeys (dictInsert k v d) := by
  induction d with
  | nil => simp [dictInsert, NodupKeys, keysOf]
  | cons kv t ih =>
    rcases kv with ⟨k', v'⟩
    rcases List.nodup_cons.mp hn with ⟨hk', hnt⟩
    by_cases hk : k' = k
    · have heq : dictInsert k v ((k', v') :: t) = (k', v) :: t := by
        simp [dictInsert, hk]
      rw [heq]
      exact hn
    · have : NodupKeys ((k', v') :: dictInsert k v t) := by
        rw [NodupKeys, keysOf_cons, List.nodup_cons]
        constructor
        · intro hmem
          rcases mem_keysOf_dictInsert k' k v t hmem with h | h
          · exact hk h
          · exact hk' h
        · exact ih hnt
      simpa [dictInsert, hk] using this

theorem nodupKeys_buildPositions (rows : List CsvRow) :
    NodupKeys (buildPositions rows) := by
  have main : ∀ (rs : List CsvRow) (d : PosDict), NodupKeys d →
      NodupKeys (rs.foldl
        (fun d r => dictInsert (createPositionKey r) (toPosition r) d) d) := by
    intro rs
    induction rs with
    | nil => intro d hd; exact hd
    | cons r t ih =>
      intro d hd
      exact ih _ (nodupKeys_dictInsert _ _ _ hd)
  exact main rows [] (by simp [NodupKeys, keysOf])

theorem lookupD_dictInsert (k k' : String) (v : PosData) (d : PosDict) :
    lookupD k (dictInsert k' v d) =
      if k' = k then some v else lookupD k d := by
  induction d with
  | nil => simp [dictInsert, lookupD]
  | cons kv t ih =>
    rcases kv with ⟨k₀, v₀⟩
    by_cases h₀ : k₀ = k'
    · subst h₀
      by_cases hk : k₀ = k
      · simp [dictInsert, lookupD, hk]
      · simp [dictInsert, lookupD, hk]
    · by_cases hk : k₀ = k
      · subst hk
        have h₀' : ¬ k' = k₀ := fun h => h₀ h.symm
        simp [dictInsert, h₀, lookupD, h₀']
      · simp [dictInsert, h₀, lookupD, hk, ih]

theorem count_keysOf_le_one (k : String) (d : PosDict) (hn : NodupKeys d) :
    (keysOf d).count k ≤ 1 :=
  List.nodup_iff_count_le_one.mp hn k

theorem count_keysOf_filter_le (p : String × PosData → Bool) (d : PosDict)
    (k : String) :
    (keysOf (d.filter p)).count k ≤ (keysOf d).count k := by
  induction d with
  | nil => simp
  | cons kv t ih =>
    by_cases hp : p kv
    · simp only [List.filter_cons, hp, if_true, keysOf_cons, List.count_cons]
      split <;> omega
    · simp only [List.filter_cons, hp, if_false, Bool.false_eq_true, keysOf_cons,
        List.count_cons]
      split <;> omega

theorem count_keysOf_filterMap_le (f : String × PosData → Option (String × PosData))
    (d : PosDict) (k : String)
    (hf : ∀ kv r, f kv = some r → r.1 = kv.1) :
    (keysOf (d.filterMap f)).count k ≤ (keysOf d).count k := by
  induction d with
  | nil => simp
  | cons kv t ih =>
    rcases hr : f kv with _ | r
    · simp only [List.filterMap_cons, hr, keysOf_cons, List.count_cons]
      split <;> omega
    · have hkey : r.1 = kv.1 := hf kv r hr
      simp only [List.filterMap_cons, hr, keysOf_cons, List.count_cons, hkey]
      split <;> omega

theorem count_keysOf_filterMap_add_le
    (f g : String × PosData → Option (String × PosData)) (d : PosDict) (k : String)
    (hf : ∀ kv r, f kv = some r → r.1 = kv.1)
    (hg : ∀ kv r, g kv = some r → r.1 = kv.1)
    (hex : ∀ kv, (f kv).isSome → g kv = none) :
    (keysOf (d.filterMap f)).count k + (keysOf (d.filterMap g)).count k ≤
      (keysOf d).count k := by
  induction d with
  | nil => simp [keysOf]
  | cons kv t ih =>
    rcases hr : f kv with _ | r
    · rcases hs : g kv with _ | s
      · simp only [List.filterMap_cons, hr, hs, keysOf_cons, List.count_cons]
        split <;> omega
      · have hkey : s.1 = kv.1 := hg kv s hs
        simp only [List.filterMap_cons, hr, hs, keysOf_cons, List.count_cons, hkey]
        split <;> omega
    · have hgnone : g kv = none := hex kv (by simp [hr])
      have hkey : r.1 = kv.1 := hf kv r hr
      simp only [List.filterMap_cons, hr, hgnone, keysOf_cons, List.count_cons, hkey]
      split <;> omega

/-! ## Emission-key characterizations -/

theorem newBuys_key_sound (cur prior : PosDict) (k : String)
    (h : k ∈ keysOf (newBuys cur prior)) :
    k ∈ keysOf cur ∧ lookupD k prior = none := by
  rcases List.mem_map.mp h with ⟨b, hb, hbk⟩
  rcases List.mem_filter.mp hb with ⟨hmem, hp⟩
  subst hbk
  refine ⟨List.mem_map_of_mem (fun kv => kv.1) hmem, ?_⟩
  simpa [Option.isNone_iff_eq_none] using hp

theorem exits_key_sound (cur prior : PosDict) (k : String)
    (h : k ∈ keysOf (positionExits cur prior)) :
    k ∈ keysOf prior ∧ lookupD k cur = none := by
  rcases List.mem_map.mp h with ⟨b, hb, hbk⟩
  rcases List.mem_filter.mp hb with ⟨hmem, hp⟩
  subst hbk
  refine ⟨List.mem_map_of_mem (fun kv => kv.1) hmem, ?_⟩
  simpa [Option.isNone_iff_eq_none] using hp

theorem increases_key_sound (t : ℚ) (cur prior : PosDict) (k : String)
    (h : k ∈ keysOf (positionIncreases t cur prior)) :
    ∃ p1 p0, (k, p1) ∈ cur ∧ lookupD k prior = some p0 ∧ 0 < p0.value ∧
      t < (p1.value - p0.value) / p0.value := by
  rcases List.mem_map.mp h with ⟨b, hb, hbk⟩
  rcases List.mem_filterMap.mp hb with ⟨kv, hkv, hf⟩
  rcases hlook : lookupD kv.1 prior with _ | p0
  · simp [hlook] at hf
  · simp only [hlook] at hf
    by_cases hv : 0 < p0.value
    · by_cases hpct : t < (kv.2.value - p0.value) / p0.value
      · simp only [hv, hpct, if_true, if_pos] at hf
        injection hf with hf'
        have hk1 : kv.1 = k := by
          rw [← hbk, ← hf']
        subst hk1
        exact ⟨kv.2, p0, by simpa using hkv, hlook, hv, hpct⟩
      · simp [hv, hpct] at hf
    · simp [hv] at hf

theorem increases_key_complete (t : ℚ) (cur prior : PosDict) (k : String)
    (p1 p0 : PosData) (h1 : (k, p1) ∈ cur) (h0 : lookupD k prior = some p0)
    (hv : 0 < p0.value) (hpct : t < (p1.value - p0.value) / p0.value) :
    k ∈ keysOf (positionIncreases t cur prior) := by
  apply List.mem_map.mpr
  refine ⟨(k, incPayload p1 p0), ?_, rfl⟩
  apply List.mem_filterMap.mpr
  exact ⟨(k, p1), h1, by simp [h0, hv, hpct]⟩

theorem decreases_key_sound (t : ℚ) (cur prior : PosDict) (k : String)
    (h : k ∈ keysOf (positionDecreases t cur prior)) :
    ∃ p1 p0, (k, p1) ∈ cur ∧ lookupD k prior = some p0 ∧ 0 < p0.value ∧
      ¬ t < (p1.value - p0.value) / p0.value ∧
      (p1.value - p0.value) / p0.value < -t := by
  rcases List.mem_map.mp h with ⟨b, hb, hbk⟩
  rcases List.mem_filterMap.mp hb with ⟨kv, hkv, hf⟩
  rcases hlook : lookupD kv.1 prior with _ | p0
  · simp [hlook] at hf
  · simp only [hlook] at hf
    by_cases hv : 0 < p0.value
    · by_cases hup : t < (kv.2.value - p0.value) / p0.value
      · simp [hv, hup] at hf
      · by_cases hdn : (kv.2.value - p0.value) / p0.value < -t
        · simp only [hv, hup, hdn, if_true, if_false, if_pos, if_neg,
            not_false_iff] at hf
          injection hf with hf'
          have hk1 : kv.1 = k := by
            rw [← hbk, ← hf']
          subst hk1
          exact ⟨kv.2, p0, by simpa using hkv, hlook, hv, hup, hdn⟩
        · simp [hv, hup, hdn] at hf
    · simp [hv] at hf

theorem decreases_key_complete (t : ℚ) (cur prior : PosDict) (k : String)
    (p1 p0 : PosData) (h1 : (k, p1) ∈ cur) (h0 : lookupD k prior = some p0)
    (hv : 0 < p0.value) (hup : ¬ t < (p1.value - p0.value) / p0.value)
    (hdn : (p1.value - p0.value) / p0.value < -t) :
    k ∈ keysOf (positionDecreases t cur prior) := by
  apply List.mem_map.mpr
  refine ⟨(k, decPayload p1 p0), ?_, rfl⟩
  apply List.mem_filterMap.mpr
  exact ⟨(k, p1), h1, by simp [h0, hv, hup, hdn]⟩

theorem increases_payload_eq (t : ℚ) (cur prior : PosDict) (k : String)
    (c p1 p0 : PosData) (hn : NodupKeys cur)
    (h1 : lookupD k cur = some p1) (h0 : lookupD k prior = some p0)
    (hc : (k, c) ∈ positionIncreases t cur prior) :
    c = incPayload p1 p0 := by
  rcases List.mem_filterMap.mp hc with ⟨kv, hkv, hf⟩
  rcases hlook : lookupD kv.1 prior with _ | p0'
  · simp [hlook] at hf
  · simp only [hlook] at hf
    by_cases hv : 0 < p0'.value
    · by_cases hpct : t < (kv.2.value - p0'.value) / p0'.value
      · simp only [hv, hpct, if_true, if_pos] at hf
        injection hf with hf'
        have hk1 : kv.1 = k := congrArg Prod.fst hf'
        have hcval : incPayload kv.2 p0' = c := congrArg Prod.snd hf'
        rw [hk1] at hlook
        rw [hlook] at h0
        injection h0 with h0'
        have hkv' : (k, kv.2) ∈ cur := by
          rw [← hk1]
          simpa using hkv
        have := lookupD_of_mem_nodup k kv.2 cur hn hkv'
        rw [this] at h1
        injection h1 with h1'
        rw [← hcval, h1', h0']
      · simp [hv, hpct] at hf
    · simp [hv] at hf

theorem increases_count_le (t : ℚ) (cur prior : PosDict) (k : String) :
    (keysOf (positionIncreases t cur prior)).count k ≤ (keysOf cur).count k := by
  apply count_keysOf_filterMap_le
  intro kv r hf
  rcases hlook : lookupD kv.1 prior with _ | p0
  · simp [hlook] at hf
  · simp only [hlook] at hf
    by_cases hv : 0 < p0.value
    · by_cases hpct : t < (kv.2.value - p0.value) / p0.value
      · simp only [hv, hpct, if_true, if_pos] at hf
        injection hf with hf'
        exact (congrArg Prod.fst hf').symm
      · simp [hv, hpct] at hf
    · simp [hv] at hf

theorem inc_dec_count_le (t : ℚ) (cur prior : PosDict) (k : String) :
    (keysOf (positionIncreases t cur prior)).count k +
      (keysOf (positionDecreases t cur prior)).count k ≤
      (keysOf cur).count k := by
  apply count_keysOf_filterMap_add_le
  · intro kv r hf
    rcases hlook : lookupD kv.1 prior with _ | p0
    · simp [hlook] at hf
    · simp only [hlook] at hf
      by_cases hv : 0 < p0.value
      · by_cases hpct : t < (kv.2.value - p0.value) / p0.value
        · simp only [hv, hpct, if_true, if_pos] at hf
          injection hf with hf'
          exact (congrArg Prod.fst hf').symm
        · simp [hv, hpct] at hf
      · simp [hv] at hf
  · intro kv r hg
    rcases hlook : lookupD kv.1 prior with _ | p0
    · simp [hlook] at hg
    · simp only [hlook] at hg
      by_cases hv : 0 < p0.value
      · by_cases hup : t < (kv.2.value - p0.value) / p0.value
        · simp [hv, hup] at hg
        · by_cases hdn : (kv.2.value - p0.value) / p0.value < -t
          · simp only [hv, hup, hdn, if_true, if_false, if_pos, if_neg,
              not_false_iff] at hg
            injection hg with hg'
            exact (congrArg Prod.fst hg').symm
          · simp [hv, hup, hdn] at hg
      · simp [hv] at hg
  · intro kv hsome
    rcases hlook : lookupD kv.1 prior with _ | p0
    · simp [hlook]
    · by_cases hv : 0 < p0.value
      · by_cases hpct : t < (kv.2.value - p0.value) / p0.value
        · simp [hlook, hv, hpct]
        · simp [hlook, hv, hpct] at hsome
      · simp [hlook, hv] at hsome

/-! ## Claim theorems -/

/--
C3.  Opened/Closed on disjoint snapshots: when the current and prior
snapshots share no position key, the new-buys pass returns the whole
current dictionary (one Opened emission per current position, carrying that
position's data), the exits pass returns the whole prior dictionary, and
the increase/decrease passes emit nothing.  An empty prior or current
snapshot is the special case of this with one side empty: classification
proceeds and yields only Opened or only Closed emissions.
-/
theorem disjoint_snapshots_classification (t : ℚ) (cur prior : PosDict)
    (hdisj : ∀ k, k ∈ keysOf cur → k ∉ keysOf prior) :
    newBuys cur prior = cur ∧ positionExits cur prior = prior ∧
    positionIncreases t cur prior = [] ∧ positionDecreases t cur prior = [] := by
  have hlookP : ∀ kv ∈ cur, lookupD kv.1 prior = none := by
    intro kv hkv
    rw [lookupD_eq_none_iff]
    exact hdisj kv.1 (List.mem_map_of_mem (fun kv => kv.1) hkv)
  have hlookC : ∀ kv ∈ prior, lookupD kv.1 cur = none := by
    intro kv hkv
    rw [lookupD_eq_none_iff]
    intro hmem
    exact hdisj kv.1 hmem (List.mem_map_of_mem (fun kv => kv.1) hkv)
  refine ⟨?_, ?_, ?_, ?_⟩
  · apply List.filter_eq_self.mpr
    intro kv hkv
    simp [hlookP kv hkv]
  · apply List.filter_eq_self.mpr
    intro kv hkv
    simp [hlookC kv hkv]
  · apply List.filterMap_eq_nil_iff.mpr
    intro kv hkv
    simp [hlookP kv hkv]
  · apply List.filterMap_eq_nil_iff.mpr
    intro kv hkv
    simp [hlookP kv hkv]

/-- Witness for C3 at the spec's concrete disjoint snapshots. -/
theorem disjoint_snapshots_classification_witness :
    keysOf curNew = ["FundB||NEW"] ∧ keysOf priorXyz = ["FundA||XYZ"] ∧
    (newBuys curNew priorXyz = curNew ∧
     positionExits curNew priorXyz = priorXyz ∧
     positionIncreases (1/2) curNew priorXyz = [] ∧
     positionDecreases (1/2) curNew priorXyz = []) := by
  refine ⟨by decide, by decide, ?_⟩
  have hdisj : ∀ k, k ∈ keysOf curNew → k ∉ keysOf priorXyz := by
    intro k hk hk'
    simp [curNew, priorXyz, keysOf] at hk hk'
    rw [hk] at hk'
    exact absurd hk' (by decide)
  exact disjoint_snapshots_classification (1/2) curNew priorXyz hdisj

/--
C4 counterexample.  The claim says a duplicated `(holder_id, instrument_id)`
key within one snapshot makes index building fail with `DuplicateKeyError`,
surfaced to the caller and never silently patched.  The source's index
build is a total dict-assignment loop: on the concrete snapshot
`[dupRow1, dupRow2]`, whose two rows share the key `FundA||AAPL` but carry
different values, it succeeds and returns the one-entry index holding the
second row's data — the first row is silently overwritten.
-/
theorem duplicate_key_no_error_cex :
    buildPositions [dupRow1, dupRow2] = [("FundA||AAPL", toPosition dupRow2)] ∧
    createPositionKey dupRow1 = createPositionKey dupRow2 ∧
    toPosition dupRow1 ≠ toPosition dupRow2 := by
  refine ⟨by decide, by decide, by decide⟩

/--
C4 amended.  Building the per-snapshot index never fails: when the same
key appears on several rows, later rows silently overwrite earlier ones,
so the index maps each key to the data of the last row bearing it
(last-wins; no error is surfaced and no merge policy exists).
-/
theorem duplicate_key_last_wins (rows : List CsvRow) (k : String) :
    lookupD k (buildPositions rows) =
      (rows.reverse.find? (fun r => createPositionKey r == k)).map toPosition := by
  have main : ∀ (rs : List CsvRow) (d : PosDict),
      lookupD k (rs.foldl
        (fun d r => dictInsert (createPositionKey r) (toPosition r) d) d) =
      match rs.reverse.find? (fun r => createPositionKey r == k) with
      | some r => some (toPosition r)
      | none => lookupD k d := by
    intro rs
    induction rs with
    | nil => intro d; simp
    | cons r tl ih =>
      intro d
      rw [List.foldl_cons, ih, List.reverse_cons, List.find?_append]
      rcases hfind : tl.reverse.find? (fun r => createPositionKey r == k) with _ | r'
      · simp only [Option.none_orElse]
        rcases hr : (createPositionKey r == k) with _ | _
        · have hne : ¬ createPositionKey r = k := by
            simpa using hr
          simp [List.find?, hr, lookupD_dictInsert, hne]
        · have heq : createPositionKey r = k := by
            simpa using hr
          simp [List.find?, hr, lookupD_dictInsert, heq]
      · simp
  rw [buildPositions, main rows []]
  rcases hfind : rows.reverse.find? (fun r => createPositionKey r == k) with _ | r
  · simp [lookupD]
  · simp

/--
C5.  Zero-prior guard: a key present in both snapshots whose prior market
value is 0 is excluded from the change pass entirely — it appears in
neither the increases nor the decreases emissions, and the guarded
percent-change division is never taken on a zero divisor (the `q4_value >
0` test fails, so neither payload is built for the key).
-/
theorem zero_prior_guard (t : ℚ) (cur prior : PosDict) (k : String)
    (p1 p0 : PosData) (h1 : lookupD k cur = some p1)
    (h0 : lookupD k prior = some p0) (hz : p0.value = 0) :
    k ∉ keysOf (positionIncreases t cur prior) ∧
    k ∉ keysOf (positionDecreases t cur prior) := by
  constructor
  · intro h
    rcases increases_key_sound t cur prior k h with ⟨p1', p0', _, hl0, hv, _⟩
    rw [h0] at hl0
    injection hl0 with hl0'
    rw [← hl0', hz] at hv
    exact absurd hv (by norm_num)
  · intro h
    rcases decreases_key_sound t cur prior k h with ⟨p1', p0', _, hl0, hv, _, _⟩
    rw [h0] at hl0
    injection hl0 with hl0'
    rw [← hl0', hz] at hv
    exact absurd hv (by norm_num)

/-- Witness for C5 at a concrete zero-prior position. -/
theorem zero_prior_guard_witness :
    lookupD "FundA||ZRO" q1Zero = some (mkPos "FundA" "ZRO" 50) ∧
    lookupD "FundA||ZRO" q4Zero = some (mkPos "FundA" "ZRO" 0) ∧
    (mkPos "FundA" "ZRO" 0).value = 0 ∧
    ("FundA||ZRO" ∉ keysOf (positionIncreases (1/2) q1Zero q4Zero) ∧
     "FundA||ZRO" ∉ keysOf (positionDecreases (1/2) q1Zero q4Zero)) := by
  refine ⟨by decide, by decide, by decide, ?_⟩
  exact zero_prior_guard (1/2) q1Zero q4Zero "FundA||ZRO"
    (mkPos "FundA" "ZRO" 50) (mkPos "FundA" "ZRO" 0)
    (by decide) (by decide) (by decide)

/--
C1.  Partition: for every pair of snapshots (built from arbitrary row
lists, as the source builds its per-quarter dicts) and every threshold,
each key occurring in either snapshot is classified at most once across
the four emission lists (new buys / exits / increases / decreases), so the
key lands in exactly one of {Opened, Closed, Increased, Decreased, neither}
— the fifth bucket being "present in both but unchanged within the
threshold, or with non-positive prior value"; the categories are mutually
exclusive and no key is classified twice.
-/
theorem classification_partition (t : ℚ) (rows1 rows0 : List CsvRow)
    (k : String)
    (hk : k ∈ keysOf (buildPositions rows1) ∨ k ∈ keysOf (buildPositions rows0)) :
    (keysOf (newBuys (buildPositions rows1) (buildPositions rows0))).count k +
    (keysOf (positionExits (buildPositions rows1) (buildPositions rows0))).count k +
    (keysOf (positionIncreases t (buildPositions rows1) (buildPositions rows0))).count k +
    (keysOf (positionDecreases t (buildPositions rows1) (buildPositions rows0))).count k
      ≤ 1 := by
  clear hk
  set q1 := buildPositions rows1 with hq1
  set q0 := buildPositions rows0 with hq0
  have hn1 : NodupKeys q1 := nodupKeys_buildPositions rows1
  have hn0 : NodupKeys q0 := nodupKeys_buildPositions rows0
  have h1le : (keysOf q1).count k ≤ 1 := count_keysOf_le_one k q1 hn1
  have h0le : (keysOf q0).count k ≤ 1 := count_keysOf_le_one k q0 hn0
  have hNle : (keysOf (newBuys q1 q0)).count k ≤ (keysOf q1).count k :=
    count_keysOf_filter_le _ q1 k
  have hEle : (keysOf (positionExits q1 q0)).count k ≤ (keysOf q0).count k :=
    count_keysOf_filter_le _ q0 k
  have hIDle : (keysOf (positionIncreases t q1 q0)).count k +
      (keysOf (positionDecreases t q1 q0)).count k ≤ (keysOf q1).count k :=
    inc_dec_count_le t q1 q0 k
  rcases hl0 : lookupD k q0 with _ | p0
  · have hknot0 : k ∉ keysOf q0 := (lookupD_eq_none_iff k q0).mp hl0
    have hE0 : (keysOf (positionExits q1 q0)).count k = 0 := by
      rw [List.count_eq_zero]
      intro hmem
      exact hknot0 (exits_key_sound q1 q0 k hmem).1
    have hI0 : (keysOf (positionIncreases t q1 q0)).count k = 0 := by
      rw [List.count_eq_zero]
      intro hmem
      rcases increases_key_sound t q1 q0 k hmem with ⟨p1', p0', _, hl, _, _⟩
      rw [hl0] at hl
      exact Option.noConfusion hl
    have hD0 : (keysOf (positionDecreases t q1 q0)).count k = 0 := by
      rw [List.count_eq_zero]
      intro hmem
      rcases decreases_key_sound t q1 q0 k hmem with ⟨p1', p0', _, hl, _, _, _⟩
      rw [hl0] at hl
      exact Option.noConfusion hl
    omega
  · have hN0 : (keysOf (newBuys q1 q0)).count k = 0 := by
      rw [List.count_eq_zero]
      intro hmem
      have hnone := (newBuys_key_sound q1 q0 k hmem).2
      rw [hl0] at hnone
      exact Option.noConfusion hnone
    rcases hl1 : lookupD k q1 with _ | p1
    · have hknot1 : k ∉ keysOf q1 := (lookupD_eq_none_iff k q1).mp hl1
      have hq1cnt : (keysOf q1).count k = 0 := List.count_eq_zero.mpr hknot1
      omega
    · have hE0 : (keysOf (positionExits q1 q0)).count k = 0 := by
        rw [List.count_eq_zero]
        intro hmem
        have hnone := (exits_key_sound q1 q0 k hmem).2
        rw [hl1] at hnone
        exact Option.noConfusion hnone
      omega

/-- Witness for C1 at the spec's concrete one-position snapshots. -/
theorem classification_partition_witness :
    ("FundA||AAPL" ∈ keysOf (buildPositions rowsCurW) ∨
     "FundA||AAPL" ∈ keysOf (buildPositions rowsPriorW)) ∧
    (keysOf (newBuys (buildPositions rowsCurW) (buildPositions rowsPriorW))).count
        "FundA||AAPL" +
    (keysOf (positionExits (buildPositions rowsCurW)
        (buildPositions rowsPriorW))).count "FundA||AAPL" +
    (keysOf (positionIncreases (1/2) (buildPositions rowsCurW)
        (buildPositions rowsPriorW))).count "FundA||AAPL" +
    (keysOf (positionDecreases (1/2) (buildPositions rowsCurW)
        (buildPositions rowsPriorW))).count "FundA||AAPL" ≤ 1 :=
  ⟨Or.inl (by decide),
   classification_partition (1/2) rowsCurW rowsPriorW "FundA||AAPL"
     (Or.inl (by decide))⟩

/--
C2.  Threshold strictness: for a key present in both snapshots with
positive prior value, the position is emitted Increased exactly when
`(current - prior) / prior` is strictly greater than the threshold, and
Decreased exactly when it is strictly less than the negated threshold —
equality with the threshold emits nothing; every Increased emission for
the key carries `pct_change = (current - prior) / prior` and
`dollar_change = current - prior` (so prior 100, current 160, threshold
1/2 yields an Increased emission with `pct_change = 3/5` and
`dollar_change = 60`; see the witness).
-/
theorem threshold_strictness (t : ℚ) (ht : 0 ≤ t) (cur prior : PosDict)
    (hn : NodupKeys cur) (k : String) (p1 p0 : PosData)
    (h1 : lookupD k cur = some p1) (h0 : lookupD k prior = some p0)
    (hv : 0 < p0.value) :
    (k ∈ keysOf (positionIncreases t cur prior) ↔
      t < (p1.value - p0.value) / p0.value) ∧
    (k ∈ keysOf (positionDecreases t cur prior) ↔
      (p1.value - p0.value) / p0.value < -t) ∧
    (∀ c, (k, c) ∈ positionIncreases t cur prior →
      c.pct_change = some ((p1.value - p0.value) / p0.value) ∧
      c.dollar_change = some (p1.value - p0.value)) := by
  refine ⟨⟨?_, ?_⟩, ⟨?_, ?_⟩, ?_⟩
  · intro hmem
    rcases increases_key_sound t cur prior k hmem with ⟨p1', p0', hm, hl, _, hpct⟩
    rw [h0] at hl
    injection hl with hl'
    have hp1 := lookupD_of_mem_nodup k p1' cur hn hm
    rw [h1] at hp1
    injection hp1 with hp1'
    rw [← hp1', ← hl'] at hpct
    exact hpct
  · intro hpct
    exact increases_key_complete t cur prior k p1 p0 (lookupD_mem k p1 cur h1)
      h0 hv hpct
  · intro hmem
    rcases decreases_key_sound t cur prior k hmem with
      ⟨p1', p0', hm, hl, _, _, hdn⟩
    rw [h0] at hl
    injection hl with hl'
    have hp1 := lookupD_of_mem_nodup k p1' cur hn hm
    rw [h1] at hp1
    injection hp1 with hp1'
    rw [← hp1', ← hl'] at hdn
    exact hdn
  · intro hdn
    have hup : ¬ t < (p1.value - p0.value) / p0.value := by
      intro hup
      have : (p1.value - p0.value) / p0.value < t := lt_of_lt_of_le
        (lt_of_lt_of_le hdn (by linarith)) ht
      linarith
    exact decreases_key_complete t cur prior k p1 p0 (lookupD_mem k p1 cur h1)
      h0 hv hup hdn
  · intro c hc
    have := increases_payload_eq t cur prior k c p1 p0 hn h1 h0 hc
    subst this
    constructor <;> rfl

/-- Witness for C2 at the spec's concrete scenario: prior 100, current
160, threshold 1/2; the position is emitted Increased with
`dollar_change = 60`. -/
theorem threshold_strictness_witness :
    ((0:ℚ) ≤ 1/2 ∧ (0:ℚ) < (mkPos "FundA" "AAPL" 100).value ∧
     (positionIncreases (1/2) q1Aapl q4Aapl).map
       (fun kv => kv.2.dollar_change) = [some 60]) ∧
    ("FundA||AAPL" ∈ keysOf (positionIncreases (1/2) q1Aapl q4Aapl) ↔
      (1/2 : ℚ) <
        ((mkPos "FundA" "AAPL" 160).value - (mkPos "FundA" "AAPL" 100).value) /
          (mkPos "FundA" "AAPL" 100).value) ∧
    ("FundA||AAPL" ∈ keysOf (positionDecreases (1/2) q1Aapl q4Aapl) ↔
      ((mkPos "FundA" "AAPL" 160).value - (mkPos "FundA" "AAPL" 100).value) /
          (mkPos "FundA" "AAPL" 100).value < -(1/2 : ℚ)) ∧
    (("FundA||AAPL", incPayload (mkPos "FundA" "AAPL" 160) (mkPos "FundA" "AAPL" 100)) ∈
        positionIncreases (1/2) q1Aapl q4Aapl →
      (incPayload (mkPos "FundA" "AAPL" 160) (mkPos "FundA" "AAPL" 100)).pct_change =
        some
          (((mkPos "FundA" "AAPL" 160).value - (mkPos "FundA" "AAPL" 100).value) /
            (mkPos "FundA" "AAPL" 100).value) ∧
      (incPayload (mkPos "FundA" "AAPL" 160) (mkPos "FundA" "AAPL" 100)).dollar_change =
        some
          ((mkPos "FundA" "AAPL" 160).value - (mkPos "FundA" "AAPL" 100).value)) := by
  have main := threshold_strictness (1/2) (by norm_num) q1Aapl q4Aapl
    (by unfold NodupKeys; decide)
    "FundA||AAPL" (mkPos "FundA" "AAPL" 160) (mkPos "FundA" "AAPL" 100)
    (by decide) (by decide) (by decide)
  exact ⟨⟨by norm_num, by decide, by decide⟩, main.1, main.2.1,
    main.2.2 (incPayload (mkPos "FundA" "AAPL" 160) (mkPos "FundA" "AAPL" 100))⟩

/-! ## Position-key encoding lemmas -/

theorem hasDoublePipe_tail (a : Char) (l : List Char)
    (h : hasDoublePipe (a :: l) = false) : hasDoublePipe l = false := by
  cases l with
  | nil => rfl
  | cons b t =>
    simp only [hasDoublePipe, Bool.or_eq_false_iff] at h
    exact h.2

theorem sep_split (f₁ : List Char) : ∀ (f₂ : List Char) (c₁ c₂ : List Char),
    hasDoublePipe f₁ = false → hasDoublePipe f₂ = false →
    c₁.head? ≠ some '|' → c₂.head? ≠ some '|' →
    f₁ ++ '|' :: '|' :: c₁ = f₂ ++ '|' :: '|' :: c₂ →
    f₁ = f₂ ∧ c₁ = c₂ := by
  induction f₁ with
  | nil =>
    intro f₂ c₁ c₂ _ hf₂ hc₁ hc₂ h
    cases f₂ with
    | nil => simpa using h
    | cons a as =>
      simp only [List.nil_append, List.cons_append, List.cons.injEq] at h
      obtain ⟨ha, h'⟩ := h
      cases as with
      | nil =>
        simp only [List.nil_append, List.cons.injEq] at h'
        exact absurd (by simp [h'.2]) hc₁
      | cons b bs =>
        simp only [List.cons_append, List.cons.injEq] at h'
        obtain ⟨hb, _⟩ := h'
        rw [← ha, ← hb] at hf₂
        simp [hasDoublePipe] at hf₂
  | cons x xs ih =>
    intro f₂ c₁ c₂ hf₁ hf₂ hc₁ hc₂ h
    cases f₂ with
    | nil =>
      simp only [List.nil_append, List.cons_append, List.cons.injEq] at h
      obtain ⟨hx, h'⟩ := h
      cases xs with
      | nil =>
        simp only [List.nil_append, List.cons.injEq] at h'
        exact absurd (by simp [← h'.2]) hc₂
      | cons b bs =>
        simp only [List.cons_append, List.cons.injEq] at h'
        obtain ⟨hb, _⟩ := h'
        rw [hx, hb] at hf₁
        simp [hasDoublePipe] at hf₁
    | cons y ys =>
      simp only [List.cons_append, List.cons.injEq] at h
      obtain ⟨hxy, h'⟩ := h
      rcases ih ys c₁ c₂ (hasDoublePipe_tail x xs hf₁)
        (hasDoublePipe_tail y ys hf₂) hc₁ hc₂ h' with ⟨h1, h2⟩
      exact ⟨by rw [hxy, h1], h2⟩

theorem strData_append (s t : String) : (s ++ t).data = s.data ++ t.data := by
  cases s
  cases t
  rfl

theorem strData_inj (s t : String) (h : s.data = t.data) : s = t := by
  cases s
  cases t
  exact congrArg String.mk h

theorem pairKey_data (f c : String) :
    (pairKey f c).data = f.data ++ '|' :: '|' :: c.data := by
  rw [pairKey, strData_append, strData_append]
  simp

/--
C10 counterexample.  The claim's precondition — fund and company strings
free of the `'||'` substring — does not make the key encoding injective:
the distinct pairs `("a", "|b")` and `("a|", "b")`, none of whose four
components contains `'||'`, collide on the same key `"a|||b"`.
-/
theorem position_key_collision_cex :
    pairKey "a" "|b" = pairKey "a|" "b" ∧
    hasDoublePipeS "a" = false ∧ hasDoublePipeS "|b" = false ∧
    hasDoublePipeS "a|" = false ∧ hasDoublePipeS "b" = false ∧
    ¬ (("a", "|b") = (("a|", "b") : String × String)) := by
  refine ⟨by decide, by decide, by decide, by decide, by decide, by decide⟩

/--
C10 amended.  The comparison key concatenates holder and instrument with
`'||'`.  For rows whose fund name contains no `'||'` substring and whose
company name does not begin with `'|'`, distinct `(fund, company)` pairs
yield distinct keys — the encoding is injective on that domain, so
membership tests on encoded keys (the `key not in q4_positions` checks)
coincide with membership of the underlying pairs.  Without the company
side-condition two distinct pairs can collide into one key (see the
counterexample), conflating different positions.
-/
theorem position_key_injective (f₁ c₁ f₂ c₂ : String)
    (hf₁ : hasDoublePipeS f₁ = false) (hf₂ : hasDoublePipeS f₂ = false)
    (hc₁ : c₁.data.head? ≠ some '|') (hc₂ : c₂.data.head? ≠ some '|') :
    (pairKey f₁ c₁ = pairKey f₂ c₂ ↔ (f₁ = f₂ ∧ c₁ = c₂)) ∧
    (∀ l : List (String × String),
      (∀ p ∈ l, hasDoublePipeS p.1 = false ∧ p.2.data.head? ≠ some '|') →
      (pairKey f₁ c₁ ∈ l.map (fun p => pairKey p.1 p.2) ↔ (f₁, c₁) ∈ l)) := by
  have inj : ∀ (g₁ d₁ g₂ d₂ : String), hasDoublePipeS g₁ = false →
      hasDoublePipeS g₂ = false → d₁.data.head? ≠ some '|' →
      d₂.data.head? ≠ some '|' → pairKey g₁ d₁ = pairKey g₂ d₂ →
      g₁ = g₂ ∧ d₁ = d₂ := by
    intro g₁ d₁ g₂ d₂ hg₁ hg₂ hd₁ hd₂ h
    have hd := congrArg String.data h
    rw [pairKey_data, pairKey_data] at hd
    rcases sep_split g₁.data g₂.data d₁.data d₂.data hg₁ hg₂ hd₁ hd₂ hd with
      ⟨h1, h2⟩
    exact ⟨strData_inj _ _ h1, strData_inj _ _ h2⟩
  constructor
  · constructor
    · intro h
      exact inj f₁ c₁ f₂ c₂ hf₁ hf₂ hc₁ hc₂ h
    · rintro ⟨rfl, rfl⟩
      rfl
  · intro l hl
    constructor
    · intro hmem
      rcases List.mem_map.mp hmem with ⟨p, hp, hpk⟩
      rcases inj p.1 p.2 f₁ c₁ (hl p hp).1 hf₁ (hl p hp).2 hc₁ hpk with ⟨h1, h2⟩
      rw [← h1, ← h2]
      simpa using hp
    · intro hmem
      exact List.mem_map.mpr ⟨(f₁, c₁), hmem, rfl⟩

/-- Witness for C10 (amended) at concrete fund/company names. -/
theorem position_key_injective_witness :
    (hasDoublePipeS "FundA" = false ∧ hasDoublePipeS "FundB" = false) ∧
    (pairKey "FundA" "AAPL" = pairKey "FundB" "AAPL" ↔
      ("FundA" = "FundB" ∧ "AAPL" = "AAPL")) ∧
    (pairKey "FundA" "AAPL" ∈
        [(("FundA" : String), ("AAPL" : String))].map (fun p => pairKey p.1 p.2) ↔
      (("FundA" : String), ("AAPL" : String)) ∈
        [(("FundA" : String), ("AAPL" : String))]) := by
  have main := position_key_injective "FundA" "AAPL" "FundB" "AAPL"
    (by decide) (by decide) (by decide) (by decide)
  have main2 := position_key_injective "FundA" "AAPL" "FundA" "AAPL"
    (by decide) (by decide) (by decide) (by decide)
  exact ⟨⟨by decide, by decide⟩, main.1,
    main2.2 [(("FundA" : String), ("AAPL" : String))] (by decide)⟩

/-! ## Money-string lemmas -/

theorem upperChar_fixed (c : Char) (h : c ∈ goodMoneyChars) : upperChar c = c := by
  simp only [goodMoneyChars] at h
  fin_cases h <;> decide

theorem goodMoney_ne_suffix (c : Char) (h : c ∈ goodMoneyChars) :
    c ≠ 'K' ∧ c ≠ 'M' ∧ c ≠ 'B' := by
  simp only [goodMoneyChars] at h
  fin_cases h <;> exact ⟨by decide, by decide, by decide⟩

theorem contains_eq_false (l : List Char) (c : Char) (h : ∀ x ∈ l, x ≠ c) :
    l.contains c = false := by
  have hnot : c ∉ l := fun hc => h c hc rfl
  simpa using hnot

theorem contains_eq_true (l : List Char) (c : Char) (h : c ∈ l) :
    l.contains c = true := by
  simpa using h

theorem map_upperChar_fixed (l : List Char) (h : ∀ c ∈ l, c ∈ goodMoneyChars) :
    l.map upperChar = l := by
  induction l with
  | nil => rfl
  | cons a t ih =>
    rw [List.map_cons, upperChar_fixed a (h a (by simp)),
      ih (fun c hc => h c (by simp [hc]))]

/--
C8.  Numeric value parsing: on any money string built from digits, `$`,
`,`, and `.`, the loader strips the currency symbols and thousands
separators and parses the remainder; appending a trailing `K`, `M` or `B`
multiplies the parsed value by 1000, 1000000, or 1000000000 respectively.
In particular `"$1,200K"` parses to `1200000` (see the witness).
-/
theorem money_suffix_parsing (s : String) (q : ℚ)
    (hgood : ∀ c ∈ s.data, c ∈ goodMoneyChars)
    (hq : pyFloatL (stripMoneyChars s.data) = some q) :
    parseValueStr s = q ∧
    parseValueStr (s ++ "K") = 1000 * q ∧
    parseValueStr (s ++ "M") = 1000000 * q ∧
    parseValueStr (s ++ "B") = 1000000000 * q := by
  have hmem : ∀ c ∈ stripMoneyChars s.data, c ∈ goodMoneyChars := by
    intro c hc
    exact hgood c (List.mem_of_mem_filter hc)
  have hup : (stripMoneyChars s.data).map upperChar = stripMoneyChars s.data :=
    map_upperChar_fixed _ hmem
  have hnoK : (stripMoneyChars s.data).contains 'K' = false :=
    contains_eq_false _ _ (fun x hx => (goodMoney_ne_suffix x (hmem x hx)).1)
  have hnoM : (stripMoneyChars s.data).contains 'M' = false :=
    contains_eq_false _ _ (fun x hx => (goodMoney_ne_suffix x (hmem x hx)).2.1)
  have hnoB : (stripMoneyChars s.data).contains 'B' = false :=
    contains_eq_false _ _ (fun x hx => (goodMoney_ne_suffix x (hmem x hx)).2.2)
  have hfilterK : (stripMoneyChars s.data).filter (fun c => !(c == 'K')) =
      stripMoneyChars s.data := by
    apply List.filter_eq_self.mpr
    intro a ha
    simpa using (goodMoney_ne_suffix a (hmem a ha)).1
  have hfilterM : (stripMoneyChars s.data).filter (fun c => !(c == 'M')) =
      stripMoneyChars s.data := by
    apply List.filter_eq_self.mpr
    intro a ha
    simpa using (goodMoney_ne_suffix a (hmem a ha)).2.1
  have hfilterB : (stripMoneyChars s.data).filter (fun c => !(c == 'B')) =
      stripMoneyChars s.data := by
    apply List.filter_eq_self.mpr
    intro a ha
    simpa using (goodMoney_ne_suffix a (hmem a ha)).2.2
  have hdataK : (s ++ "K").data = s.data ++ ['K'] := by rw [strData_append]
  have hdataM : (s ++ "M").data = s.data ++ ['M'] := by rw [strData_append]
  have hdataB : (s ++ "B").data = s.data ++ ['B'] := by rw [strData_append]
  have hstripK : stripMoneyChars (s.data ++ ['K']) =
      stripMoneyChars s.data ++ ['K'] := by
    rw [stripMoneyChars, stripMoneyChars, List.filter_append]
    rfl
  have hstripM : stripMoneyChars (s.data ++ ['M']) =
      stripMoneyChars s.data ++ ['M'] := by
    rw [stripMoneyChars, stripMoneyChars, List.filter_append]
    rfl
  have hstripB : stripMoneyChars (s.data ++ ['B']) =
      stripMoneyChars s.data ++ ['B'] := by
    rw [stripMoneyChars, stripMoneyChars, List.filter_append]
    rfl
  have hcontF : ∀ (y x : Char), x ≠ y →
      (∀ a ∈ stripMoneyChars s.data, a ≠ x) →
      (stripMoneyChars s.data ++ [y]).contains x = false := by
    intro y x hxy hall
    apply contains_eq_false
    intro a ha
    rcases List.mem_append.mp ha with ha | ha
    · exact hall a ha
    · simp only [List.mem_singleton] at ha
      rw [ha]
      exact fun h => hxy h.symm
  have hcontT : ∀ y : Char, (stripMoneyChars s.data ++ [y]).contains y = true :=
    fun y => contains_eq_true _ _ (by simp)
  have hfsing : ∀ y : Char, List.filter (fun c => !(c == y)) [y] = [] := by
    intro y
    simp [List.filter_cons]
  refine ⟨?_, ?_, ?_, ?_⟩
  · rw [parseValueStr]
    simp only [hup, hnoK, hnoM, hnoB, Bool.false_eq_true, if_false, hq,
      Option.getD_some]
  · rw [parseValueStr, hdataK, hstripK, List.map_append, hup,
      show List.map upperChar ['K'] = ['K'] from rfl]
    simp only [hcontT 'K', eq_self_iff_true, if_true, List.filter_append,
      hfilterK, hfsing 'K', List.append_nil, hq, Option.getD_some]
  · rw [parseValueStr, hdataM, hstripM, List.map_append, hup,
      show List.map upperChar ['M'] = ['M'] from rfl]
    have hcK := hcontF 'M' 'K' (by decide)
      (fun a ha => (goodMoney_ne_suffix a (hmem a ha)).1)
    simp only [hcK, hcontT 'M', Bool.false_eq_true, if_false, eq_self_iff_true,
      if_true, List.filter_append, hfilterM, hfsing 'M', List.append_nil, hq,
      Option.getD_some]
  · rw [parseValueStr, hdataB, hstripB, List.map_append, hup,
      show List.map upperChar ['B'] = ['B'] from rfl]
    have hcK := hcontF 'B' 'K' (by decide)
      (fun a ha => (goodMoney_ne_suffix a (hmem a ha)).1)
    have hcM := hcontF 'B' 'M' (by decide)
      (fun a ha => (goodMoney_ne_suffix a (hmem a ha)).2.1)
    simp only [hcK, hcM, hcontT 'B', Bool.false_eq_true, if_false,
      eq_self_iff_true, if_true, List.filter_append, hfilterB, hfsing 'B',
      List.append_nil, hq, Option.getD_some]

/-- Witness for C8 at the spec's concrete string: `"$1,200K"` parses to
`1200000`. -/
theorem money_suffix_parsing_witness :
    stripMoneyChars ("$1,200" : String).data = ['1', '2', '0', '0'] ∧
    pyFloatL (stripMoneyChars ("$1,200" : String).data) = some 1200 ∧
    parseValueStr "$1,200" = 1200 ∧
    parseValueStr "$1,200K" = 1200000 ∧
    parseValueStr "$1,200M" = 1200000000 := by
  have main := money_suffix_parsing "$1,200" 1200 (by decide) (by decide)
  refine ⟨by decide, by decide, main.1, ?_, ?_⟩
  · have h := main.2.1
    rw [show ("$1,200" ++ "K" : String) = "$1,200K" from rfl] at h
    rw [h]
    norm_num
  · have h := main.2.2.1
    rw [show ("$1,200" ++ "M" : String) = "$1,200M" from rfl] at h
    rw [h]
    norm_num

/-! ## Loader claims -/

theorem parseRows_count_eq_length (f : String) (rows : List RawRow) :
    (parseRows f rows).2 = (parseRows f rows).1.length := by
  induction rows with
  | nil => rfl
  | cons r rs ih =>
    rcases h : parseRow f r with _ | holding
    · simp [parseRows, h, ih]
    · simp [parseRows, h, ih]

/--
C7 counterexample.  The claim says a row is accepted if and only if its
instrument identifier is non-empty and its parsed quantity or market value
is positive.  `badTickerRow` has company `"Apple"` and market value 100 —
it satisfies the predicate — yet the loader drops it, because its ticker
cell is pandas `NaN` (an empty ticker cell in the CSV) and `.strip()` on a
float raises, landing the row in the `except: continue` branch.
-/
theorem row_acceptance_cex :
    parseRow "F" badTickerRow = none ∧
    getText badTickerRow.company = some "Apple" ∧
    ("Apple" : String) ≠ "" ∧
    getValue badTickerRow.value = 100 ∧ (0 : ℚ) < 100 := by
  refine ⟨rfl, by decide, by decide, by decide, by norm_num⟩

/--
C7 amended.  A row is accepted into the snapshot if and only if its
company and ticker cells extract without raising (each is a string cell or
an absent column) AND the stripped company is non-empty AND (the parsed
market value is positive OR the parsed share count is positive).  Rows
failing the predicate — including rows whose text-field extraction raises
— are dropped without surfacing an error.
-/
theorem row_acceptance_iff (fundName : String) (r : RawRow) :
    (parseRow fundName r).isSome = true ↔
    (∃ company ticker, getText r.company = some company ∧
      getText r.ticker = some ticker ∧ company ≠ "" ∧
      (0 < getValue r.value ∨ 0 < getShares r.shares)) := by
  rcases hc : getText r.company with _ | company
  · constructor
    · intro h
      rw [parseRow, hc] at h
      simp at h
    · rintro ⟨c, t, hc', ht', hne, hv⟩
      exact Option.noConfusion hc'
  · rcases ht : getText r.ticker with _ | ticker
    · constructor
      · intro h
        rw [parseRow, hc, ht] at h
        simp at h
      · rintro ⟨c, t, hc', ht', hne, hv⟩
        exact Option.noConfusion ht'
    · constructor
      · intro h
        by_cases hacc : company ≠ "" ∧ (0 < getValue r.value ∨ 0 < getShares r.shares)
        · exact ⟨company, ticker, rfl, rfl, hacc.1, hacc.2⟩
        · exfalso
          rw [parseRow, hc, ht] at h
          dsimp only at h
          rw [if_neg hacc] at h
          simp at h
      · rintro ⟨c, t, hc', ht', hne, hv⟩
        injection hc' with hc''
        injection ht' with ht''
        subst hc''
        rw [parseRow, hc, ht]
        dsimp only
        rw [if_pos ⟨hne, hv⟩]
        rfl

/--
C6 counterexample.  The claim says every row with an uninterpretable
numeric field is dropped (it does not enter the snapshot) and a count of
dropped rows is reported.  `numBadRow`'s market-value string `"xyz"` fails
`float()` — yet the row is NOT dropped: the inner `except` coerces the
value to 0 and the row enters the snapshot through its positive share
count; the count the loader returns (1) counts accepted rows, not dropped
ones (0 rows were dropped here, 1 was accepted).
-/
theorem numeric_parse_failure_cex :
    pyFloatL (stripMoneyChars ("xyz" : String).data) = none ∧
    parseValueStr "xyz" = 0 ∧
    parseRows "F" [numBadRow] =
      ([{ fund_name := "F", company := "Acme", ticker := "ACM",
          shares := 5, value := 0 }], 1) := by
  refine ⟨by decide, by decide, by decide⟩

/--
C6 amended.  Per-row parse failure is recovered by dropping the row and
continuing: a row whose company or ticker cell raises during extraction
contributes nothing to the snapshot and the load goes on with the
remaining rows (no exception escapes, one bad row never aborts the load).
Uninterpretable numeric fields do not drop the row — they are coerced to
0 by the inner `except`.  The count reported to the caller is the number
of accepted rows (it equals the length of the accepted list), not a count
of dropped rows.
-/
theorem row_failure_recovery (fundName : String) (r : RawRow)
    (rs : List RawRow)
    (hbad : getText r.company = none ∨ getText r.ticker = none) :
    parseRows fundName (r :: rs) = parseRows fundName rs ∧
    (parseRows fundName (r :: rs)).2 =
      (parseRows fundName (r :: rs)).1.length := by
  have hskip : parseRow fundName r = none := by
    rcases hbad with h | h
    · rw [parseRow, h]
    · rcases hc : getText r.company with _ | company
      · rw [parseRow, hc]
      · rw [parseRow, hc, h]
  refine ⟨?_, parseRows_count_eq_length fundName (r :: rs)⟩
  simp [parseRows, hskip]

/-- Witness for C6 (amended): a `NaN`-company row is skipped and the load
continues with the remaining rows. -/
theorem row_failure_recovery_witness :
    getText nanCompanyRow.company = none ∧
    parseRows "F" [nanCompanyRow, goodRow] = parseRows "F" [goodRow] ∧
    (parseRows "F" [nanCompanyRow, goodRow]).2 =
      (parseRows "F" [nanCompanyRow, goodRow]).1.length := by
  have main := row_failure_recovery "F" nanCompanyRow [goodRow]
    (Or.inl (by decide))
  exact ⟨by decide, main.1, main.2⟩

/-! ## Sorting lemmas -/

theorem mem_insertStableBy {α : Type} (before : α → α → Bool) (x z : α)
    (l : List α) (h : z ∈ insertStableBy before x l) : z = x ∨ z ∈ l := by
  induction l with
  | nil => simpa [insertStableBy] using h
  | cons y t ih =>
    by_cases hb : before y x
    · simp only [insertStableBy, hb, if_true] at h
      rcases List.mem_cons.mp h with rfl | h'
      · exact Or.inr (by simp)
      · rcases ih h' with h'' | h''
        · exact Or.inl h''
        · exact Or.inr (by simp [h''])
    · simp only [insertStableBy, hb, Bool.false_eq_true, if_false] at h
      rcases List.mem_cons.mp h with rfl | h'
      · exact Or.inl rfl
      · exact Or.inr h'

theorem insertStableBy_pairwise {α : Type} (before : α → α → Bool)
    (R : α → α → Prop)
    (htotal : ∀ a b, before a b = false → R b a)
    (hskip : ∀ a b, before a b = true → R a b)
    (htrans : ∀ a b c, R a b → R b c → R a c)
    (x : α) (l : List α) (hl : l.Pairwise R) :
    (insertStableBy before x l).Pairwise R := by
  induction l with
  | nil => simp [insertStableBy]
  | cons y t ih =>
    rcases List.pairwise_cons.mp hl with ⟨hyt, ht⟩
    by_cases hb : before y x
    · simp only [insertStableBy, hb, if_true]
      apply List.pairwise_cons.mpr
      refine ⟨?_, ih ht⟩
      intro z hz
      rcases mem_insertStableBy before x z t hz with rfl | hz'
      · exact hskip y z hb
      · exact hyt z hz'
    · simp only [insertStableBy, hb, Bool.false_eq_true, if_false]
      apply List.pairwise_cons.mpr
      have hxy : R x y := htotal y x (by simpa using hb)
      refine ⟨?_, hl⟩
      intro z hz
      rcases List.mem_cons.mp hz with rfl | hz'
      · exact hxy
      · exact htrans x y z hxy (hyt z hz')

theorem sortStableBy_pairwise {α : Type} (before : α → α → Bool)
    (R : α → α → Prop)
    (htotal : ∀ a b, before a b = false → R b a)
    (hskip : ∀ a b, before a b = true → R a b)
    (htrans : ∀ a b c, R a b → R b c → R a c)
    (l : List α) : (sortStableBy before l).Pairwise R := by
  induction l with
  | nil => simp [sortStableBy]
  | cons x t ih =>
    exact insertStableBy_pairwise before R htotal hskip htrans x
      (sortStableBy before t) ih

theorem mostCommon_pairwise (n : Nat) (counter : List (String × Nat)) :
    (mostCommon n counter).Pairwise (fun a b => b.2 ≤ a.2) := by
  rw [mostCommon]
  apply List.Pairwise.sublist (List.take_sublist n _)
  apply sortStableBy_pairwise
  · intro a b h
    simpa using Nat.le_of_not_lt (by simpa using h)
  · intro a b h
    exact Nat.le_of_lt (by simpa using h)
  · intro a b c h1 h2
    omega

/--
C9 counterexample.  The claim says every output aggregate list is sorted
by `(holder_count, total_value)` descending with value-descending
tie-breaks.  On `tiePositions` — companies A and B each held by two funds,
A seen first with total 15, B with total 100 — `create_detailed_analysis`
(driven by `Counter.most_common`, which sorts by count only and keeps
first-appearance order on ties) outputs A before B, violating the
value-descending tie-break.
-/
theorem aggregate_order_cex :
    (createDetailedAnalysis tiePositions (counterList tiePositions)
        "new_buys").map (fun d => (d.funds_count, d.total_value)) =
      [(2, 15), (2, 100)] ∧
    ¬ SortedByCountValueDesc
        (createDetailedAnalysis tiePositions (counterList tiePositions)
          "new_buys") := by
  constructor
  · decide
  · intro hsort
    have hmapped : (([(2, 15), (2, 100)] : List (Nat × ℚ)).Pairwise
        (fun p q => q.1 < p.1 ∨ (p.1 = q.1 ∧ q.2 ≤ p.2))) := by
      rw [← (show (createDetailedAnalysis tiePositions (counterList tiePositions)
        "new_buys").map (fun d => (d.funds_count, d.total_value)) =
        [(2, 15), (2, 100)] from by decide)]
      exact List.Pairwise.map _ (fun a b h => h) hsort
    rcases List.pairwise_cons.mp hmapped with ⟨hab, _⟩
    rcases hab (2, 100) (by simp) with hlt | ⟨heq, hle⟩
    · simp at hlt
    · simp at hle
      norm_num at hle

/--
C9 amended.  The enhanced-master aggregates (`create_enhanced_summary`,
which sorts with the key pair `(funds_count, total_value)` descending) are
sorted by holder count descending with ties broken by total value
descending.  The detailed-analysis lists of
`analyze_buys_sells_increases.py`, driven by `Counter.most_common`, are
ordered by holder count descending only — equal counts keep
first-appearance order and are NOT re-ordered by total value (see the
counterexample).
-/
theorem aggregate_ordering (positions : List PosData) (categoryName : String) :
    ESortedByCountValueDesc (createEnhancedSummary positions categoryName) ∧
    (createDetailedAnalysis positions (counterList positions)
        categoryName).Pairwise
      (fun a b => b.funds_count ≤ a.funds_count) := by
  constructor
  · rw [ESortedByCountValueDesc, createEnhancedSummary]
    apply List.Pairwise.sublist (List.take_sublist 25 _)
    apply sortStableBy_pairwise eBefore
    · intro a b h
      simp only [eBefore, Bool.or_eq_false_iff, Bool.and_eq_false_iff,
        decide_eq_false_iff_not, not_lt, beq_eq_false_iff_ne, ne_eq] at h
      rcases Nat.lt_trichotomy a.funds_count b.funds_count with h1 | h1 | h1
      · exact Or.inl h1
      · rcases h.2 with h2 | h2
        · exact absurd h1 h2
        · exact Or.inr ⟨h1.symm, h2⟩
      · exact absurd h.1 (Nat.not_le_of_lt h1)
    · intro a b h
      simp only [eBefore, Bool.or_eq_true, Bool.and_eq_true, decide_eq_true_eq,
        beq_iff_eq] at h
      rcases h with h1 | ⟨h1, h2⟩
      · exact Or.inl h1
      · exact Or.inr ⟨h1, le_of_lt h2⟩
    · intro a b c h1 h2
      rcases h1 with h1 | ⟨e1, le1⟩ <;> rcases h2 with h2 | ⟨e2, le2⟩
      · exact Or.inl (by omega)
      · exact Or.inl (by omega)
      · exact Or.inl (by omega)
      · exact Or.inr ⟨by omega, le_trans le2 le1⟩
  · rw [createDetailedAnalysis]
    apply List.Pairwise.map _ ?_ (mostCommon_pairwise 30 (counterList positions))
    intro p q h
    dsimp only
    repeat (first | exact h | split)

end

end B13F
